import Mathlib

/-!
# Ledger aggregation of `src/src/App.jsx`

A shallow embedding of `parseLedgerData` and of the state handling of the
`App` component, together with the properties of the specification that
can be settled on it.

Conventions of the embedding

* A JavaScript string is a `List Char` (`Str`).  Every character the
  program inspects (newline, tab, comma, `|`, white space, digits, signs) is
  a single UTF-16 code unit, so splitting and trimming act on code points
  exactly as they act on code units.
* A JavaScript number is a `JSNum`: an IEEE-754 binary64 value in canonical
  form.  `parseFloat`, `+`, `isNaN`, `=== 0` and the truthiness test used by
  `||` are the ECMAScript operations, with round-to-nearest-even.
* The object `summary` is an association list in insertion order.  Every key
  the program stores contains `|`, so no key is an array index and
  `Object.entries` enumerates the keys in the order of their creation.
-/

namespace LoanManager

/-- A JavaScript string, as the list of its characters. -/
abbrev Str := List Char

/-! ## JavaScript numbers -/

/-- An IEEE-754 double.  `fin neg m e` is the value `(-1)^neg * m * 2^e`;
values produced by the operations below are canonical: `m < 2^53`,
`-1074 ≤ e ≤ 971`, and `2^52 ≤ m` unless `e = -1074`.  Zero is
`fin neg 0 (-1074)`. -/
inductive JSNum where
  | nan : JSNum
  | inf (neg : Bool) : JSNum
  | fin (neg : Bool) (m : Nat) (e : Int) : JSNum
  deriving DecidableEq, Repr

instance : Inhabited JSNum := ⟨JSNum.nan⟩

namespace JSNum

/-- The number `+0`, the literal `0` of the source. -/
def zero : JSNum := fin false 0 (-1074)

/-- Helper of `bitLen`: the recursion is on the first argument. -/
def bitLenAux : Nat → Nat → Nat
  | 0, _ => 0
  | fuel + 1, n => if n = 0 then 0 else bitLenAux fuel (n / 2) + 1

/-- Number of binary digits of `n` (`0` for `0`). -/
def bitLen (n : Nat) : Nat := bitLenAux n n

/-- The inverse of the least positive double, `2^1074`. -/
@[irreducible] def scale : Nat := 2 ^ 1074

/-- The double `(-1)^neg * m * 2^(s - 1074)` for `m ≤ 2^53`: the significand
`2^53` is written with the next exponent, and an exponent above 971 gives an
infinity. -/
def pack (neg : Bool) (m s : Nat) : JSNum :=
  let m1 := if m = 2 ^ 53 then 2 ^ 52 else m
  let s1 := if m = 2 ^ 53 then s + 1 else s
  if 2045 < s1 then inf neg else fin neg m1 ((s1 : Int) - 1074)

/-- Whether `(n + r / q) / 2^s`, of integer part `m0`, is rounded upwards:
when its fractional part is above one half, or is one half and `m0` is odd. -/
def roundsUp (q r n s m0 : Nat) : Bool :=
  if s = 0 then decide (q < 2 * r) || (decide (2 * r = q) && decide (m0 % 2 = 1))
  else
    decide (2 ^ (s - 1) < n % 2 ^ s) ||
      (decide (n % 2 ^ s = 2 ^ (s - 1)) && (decide (r ≠ 0) || decide (m0 % 2 = 1)))

/-- The double nearest to `p / q` (ties to even), with the sign `neg`.
The quotient is first written as `(n + r / q) * 2^-1074`, then `n` is cut to
53 significant bits. -/
def roundRatio (neg : Bool) (p q : Nat) : JSNum :=
  let n := (p * scale) / q
  let r := (p * scale) % q
  let s := bitLen n - 53
  let m0 := n / 2 ^ s
  pack neg (if roundsUp q r n s m0 then m0 + 1 else m0) s

/-- The double of a natural number. -/
def ofNat (n : Nat) : JSNum := roundRatio false n 1

/-- The test `isNaN(x)`. -/
def isNaN : JSNum → Bool
  | nan => true
  | _ => false

/-- The test `x === 0`: true of `+0` and of `-0`. -/
def isZero : JSNum → Bool
  | fin _ 0 _ => true
  | _ => false

/-- Truthiness of a number: false for `NaN`, `+0` and `-0`. -/
def truthy : JSNum → Bool
  | nan => false
  | fin _ 0 _ => false
  | _ => true

/-- The signed integer `(-1)^neg * m`. -/
def signed (neg : Bool) (m : Nat) : Int := if neg then -(m : Int) else (m : Int)

/-- The sum `x + y` of two numbers (IEEE-754 addition): a zero added to a
number leaves the number, two zeros give `-0` only when both are `-0`, and
the exact sum of two other finite numbers is rounded, an exact sum of zero
being `+0`. -/
def add : JSNum → JSNum → JSNum
  | nan, _ => nan
  | _, nan => nan
  | inf a, inf b => if a = b then inf a else nan
  | inf a, fin _ _ _ => inf a
  | fin _ _ _, inf b => inf b
  | fin n1 m1 e1, fin n2 m2 e2 =>
    if m1 = 0 then (if m2 = 0 then fin (n1 && n2) 0 (-1074) else fin n2 m2 e2)
    else if m2 = 0 then fin n1 m1 e1
    else
      let e := min e1 e2
      let t := signed n1 m1 * 2 ^ (e1 - e).toNat + signed n2 m2 * 2 ^ (e2 - e).toNat
      if t = 0 then fin false 0 (-1074)
      else if 0 ≤ e then roundRatio (decide (t < 0)) (t.natAbs * 2 ^ e.toNat) 1
      else roundRatio (decide (t < 0)) t.natAbs (2 ^ (-e).toNat)

/-- The sum `0 + q₁ + q₂ + ...` taken from left to right. -/
def sum (qs : List JSNum) : JSNum := qs.foldl add zero

end JSNum

/-! ## Strings -/

/-- White space and line terminators of ECMAScript, the characters removed by
`String.prototype.trim` and skipped by `parseFloat`. -/
def isWhiteSpace (c : Char) : Bool :=
  let n := c.toNat
  n = 9 || n = 10 || n = 11 || n = 12 || n = 13 || n = 32 || n = 160 || n = 5760 ||
    (8192 ≤ n && n ≤ 8202) || n = 8232 || n = 8233 || n = 8239 || n = 8287 ||
    n = 12288 || n = 65279

/-- Removal of leading white space. -/
def trimStart (s : Str) : Str := s.dropWhile isWhiteSpace

/-- The method `trim()`. -/
def trim (s : Str) : Str := ((trimStart s).reverse.dropWhile isWhiteSpace).reverse

/-- The method `split` for a separator that is a single character satisfying
`p`: the pieces between separators, empty pieces included. -/
def splitBy (p : Char → Bool) : Str → List Str
  | [] => [[]]
  | c :: cs =>
    if p c then [] :: splitBy p cs
    else
      match splitBy p cs with
      | [] => [[c]]
      | f :: fs => (c :: f) :: fs

/-! ## `parseFloat` -/

/-- Value of a string of decimal digits. -/
def digitsVal (ds : Str) : Nat := ds.foldl (fun acc c => 10 * acc + (c.toNat - 48)) 0

/-- Whether `pre` is a prefix of `s`; on success the rest of `s`. -/
def dropPrefix : Str → Str → Option Str
  | [], s => some s
  | _ :: _, [] => none
  | a :: pre, b :: s => if a = b then dropPrefix pre s else none

/-- The exponent part `e`, `e+` or `e-` followed by digits at the head of `s`,
as a sign and a magnitude; `none` when `s` does not start with one. -/
def exponentPart (s : Str) : Option (Bool × Nat) :=
  match s with
  | c :: rest =>
    if c = 'e' || c = 'E' then
      let neg := decide (rest.head? = some '-')
      let rest1 := if rest.head? = some '-' ∨ rest.head? = some '+' then rest.tail else rest
      let ds := rest1.takeWhile Char.isDigit
      if ds = [] then none else some (neg, digitsVal ds)
    else none
  | [] => none

/-- The double of the decimal numeral with the digits `d` of which `fl` stand
after the point, and with the exponent part `ex` (a sign and a magnitude). -/
def decimalValue (neg : Bool) (d fl : Nat) : Option (Bool × Nat) → JSNum
  | none => JSNum.roundRatio neg d (10 ^ fl)
  | some (false, x) =>
    if fl ≤ x then JSNum.roundRatio neg (d * 10 ^ (x - fl)) 1
    else JSNum.roundRatio neg d (10 ^ (fl - x))
  | some (true, x) => JSNum.roundRatio neg d (10 ^ (fl + x))

/-- The value of the longest prefix of `s` that is an unsigned
`StrDecimalLiteral`, with the sign `neg`; `NaN` when there is none. -/
def parseUnsigned (neg : Bool) (s : Str) : JSNum :=
  match dropPrefix "Infinity".toList s with
  | some _ => JSNum.inf neg
  | none =>
    let ip := s.takeWhile Char.isDigit
    let rest := s.dropWhile Char.isDigit
    let hasDot := decide (rest.head? = some '.')
    let fp := if hasDot then rest.tail.takeWhile Char.isDigit else []
    let rest1 := if hasDot then rest.tail.dropWhile Char.isDigit else rest
    if ip = [] ∧ fp = [] then JSNum.nan
    else decimalValue neg (digitsVal (ip ++ fp)) fp.length (exponentPart rest1)

/-- The function `parseFloat` on a string: leading white space is skipped, the
longest prefix that is a `StrDecimalLiteral` is read, and its value is the
double nearest to the decimal numeral. -/
def parseFloat (s : Str) : JSNum :=
  match trimStart s with
  | '-' :: rest => parseUnsigned true rest
  | '+' :: rest => parseUnsigned false rest
  | t => parseUnsigned false t

/-! ## `parseLedgerData` -/

/-- The three variables `qty`, `item` and `packing` of the loop over the
fields of a line. -/
structure Scan where
  qty : JSNum
  item : Str
  packing : Str
  deriving DecidableEq, Repr

/-- One outcome of the loop body for the trimmed field `val`: the variables
after it, and whether the loop is left by `break`. -/
def scanStep (st : Scan) (val : Str) : Scan × Bool :=
  if !(parseFloat val).isNaN && st.qty.isZero then
    ({ st with qty := parseFloat val }, false)
  else if val ≠ [] ∧ st.item = [] then
    ({ st with item := val }, false)
  else if val ≠ [] ∧ st.item ≠ [] ∧ st.packing = [] then
    ({ st with packing := val }, true)
  else (st, false)

/-- The loop `for (let i = parts.length - 1; i >= 0; i--)`, started with
`i + 1 = n`. -/
def scanFrom (parts : List Str) : Nat → Scan → Scan
  | 0, st => st
  | i + 1, st =>
    let r := scanStep st (trim (parts.getD i []))
    if r.2 then r.1 else scanFrom parts i r.1

/-- The variables of the loop before the first field is read. -/
def Scan.init : Scan := { qty := JSNum.zero, item := [], packing := [] }

/-- The whole loop over the fields `parts` of one line. -/
def scanLine (parts : List Str) : Scan := scanFrom parts parts.length Scan.init

/-- The object `summary`: its own properties in the order of their creation. -/
abbrev Summary := List (Str × JSNum)

/-- The read `summary[key]`; `none` is `undefined`. -/
def Summary.get (s : Summary) (key : Str) : Option JSNum :=
  match s with
  | [] => none
  | (k, v) :: rest => if k = key then some v else Summary.get rest key

/-- The write `summary[key] = v`: an existing property keeps its place, a new
one is added last. -/
def Summary.set (s : Summary) (key : Str) (v : JSNum) : Summary :=
  match s with
  | [] => [(key, v)]
  | (k, w) :: rest => if k = key then (k, v) :: rest else (k, w) :: Summary.set rest key v

/-- The expression `x || 0` for `x` a number or `undefined`. -/
def orZero : Option JSNum → JSNum
  | some x => if x.truthy then x else JSNum.zero
  | none => JSNum.zero

/-- Separator of the fields of a line: the regular expression `/\t|,/`. -/
def isDelim (c : Char) : Bool := c = '\t' || c = ','

/-- The key of a line's item and packing, the template `item|packing`. -/
def mkKey (item packing : Str) : Str := item ++ '|' :: packing

/-- The body of `lines.forEach`: the effect of one line on `summary`. -/
def processLine (summary : Summary) (line : Str) : Summary :=
  let parts := splitBy isDelim line
  if parts.length < 5 then summary
  else
    let st := scanLine parts
    if st.item ≠ [] then
      let key := mkKey st.item st.packing
      summary.set key (JSNum.add (orZero (summary.get key)) st.qty)
    else summary

/-- A row of a table; `none` in `article` or `packing` is `undefined`. -/
structure Row where
  sl : Nat
  article : Option Str
  packing : Option Str
  qty : JSNum
  qtyKg : JSNum
  deriving DecidableEq, Repr

/-- The result of `parseLedgerData`. -/
structure Tables where
  left : List Row
  right : List Row
  deriving DecidableEq, Repr

/-- The object `entry` built for the property `key` with value `qty` at
position `idx` of the enumeration. -/
def mkEntry (idx : Nat) (key : Str) (qty : JSNum) : Row :=
  let ps := splitBy (fun c => c = '|') key
  { sl := idx + 1, article := ps[0]?, packing := ps[1]?, qty := qty, qtyKg := qty }

/-- The loop `Object.entries(summary).forEach`, from position `idx` on. -/
def distribute : List (Str × JSNum) → Nat → Tables → Tables
  | [], _, t => t
  | (key, qty) :: rest, idx, t =>
    if idx % 2 = 0 then
      distribute rest (idx + 1) { t with left := t.left ++ [mkEntry idx key qty] }
    else
      distribute rest (idx + 1) { t with right := t.right ++ [mkEntry idx key qty] }

/-- The array `lines`: the text split at newlines. -/
def textLines (rawText : Str) : List Str := splitBy (fun c => c = '\n') rawText

/-- The object `summary` after all lines of `rawText`. -/
def summarize (rawText : Str) : Summary :=
  (textLines rawText).foldl processLine []

/-- The function `parseLedgerData` on a string. -/
def parseLedgerData (rawText : Str) : Tables :=
  if rawText = [] then { left := [], right := [] }
  else distribute (summarize rawText) 0 { left := [], right := [] }

/-! ## The component `App` -/

/-- The two state variables of `App` that the tables depend on. -/
structure AppState where
  rawData : Str
  tableData : Tables
  deriving DecidableEq, Repr

/-- The body of the effect that depends on `rawData`. -/
def AppState.effect (s : AppState) : AppState :=
  if s.rawData ≠ [] then { s with tableData := parseLedgerData s.rawData } else s

/-- The state after the first render: the initial values of `useState`, and
the effect run once. -/
def AppState.initial : AppState :=
  AppState.effect { rawData := [], tableData := { left := [], right := [] } }

/-- The change handler of the text area, `setRawData(e.target.value)`, and the
render that follows: the effect runs when `rawData` has changed. -/
def AppState.setRawData (s : AppState) (text : Str) : AppState :=
  if text = s.rawData then s else AppState.effect { s with rawData := text }

/-- The state after a sequence of edits of the text area. -/
def AppState.afterEdits (edits : List Str) : AppState :=
  edits.foldl AppState.setRawData AppState.initial

/-! ## Notions used in the statements -/

/-- The variables extracted from a line that yields an item: a line of at
least 5 fields whose loop ends with a non-empty `item`. -/
def lineScan (line : Str) : Option Scan :=
  if (splitBy isDelim line).length < 5 then none
  else if (scanLine (splitBy isDelim line)).item ≠ [] then some (scanLine (splitBy isDelim line))
  else none

/-- The key of a line that yields an item. -/
def lineKey (line : Str) : Option Str :=
  (lineScan line).map (fun st => mkKey st.item st.packing)

/-- The keys of the item-yielding lines of a text, line by line. -/
def lineKeys (rawText : Str) : List Str := (textLines rawText).filterMap lineKey

/-- The quantities of the item-yielding lines of a text, line by line. -/
def lineQtys (rawText : Str) : List JSNum :=
  (textLines rawText).filterMap (fun l => (lineScan l).map Scan.qty)

/-- The distinct elements of a list in the order of their first occurrence. -/
def firstOcc : List Str → List Str
  | [] => []
  | k :: ks => k :: (firstOcc ks).filter (fun x => decide (x ≠ k))

/-- Addition of a key to a list of keys that has no repetition. -/
def addKey (acc : List Str) (k : Str) : List Str := if k ∈ acc then acc else acc ++ [k]

/-- The rows built from the entries whose position has the parity `par`. -/
def sideRows (par : Nat) (es : List (Str × JSNum)) (idx : Nat) : List Row :=
  ((es.enumFrom idx).filter (fun p => decide (p.1 % 2 = par))).map
    (fun p => mkEntry p.1 p.2.1 p.2.2)

/-- The most recent non-empty text of a sequence of edits, the empty string
when there is none. -/
def lastNonEmpty (edits : List Str) : Str :=
  (edits.reverse.find? (fun t => decide (t ≠ []))).getD []

/-- The text of the text area after a sequence of edits. -/
def currentText (edits : List Str) : Str := edits.getLast?.getD []

/-- Finite numbers whose exponent is at least the least exponent of a double;
every number that `parseFloat` and `+` produce is of this kind. -/
def JSNum.Grid : JSNum → Prop
  | JSNum.fin _ _ e => -1074 ≤ e
  | _ => True

/-- The number `-0`. -/
def JSNum.isNegZero : JSNum → Bool
  | JSNum.fin true 0 _ => true
  | _ => false

/-- The statement `summary[key] = (summary[key] || 0) + qty` on the value of
one key; `none` is `undefined`. -/
def accStep (acc : Option JSNum) (q : JSNum) : Option JSNum :=
  some (JSNum.add (orZero acc) q)

/-- The summary that has at most the key `k`. -/
def oneKey (k : Str) : Option JSNum → Summary
  | none => []
  | some v => [(k, v)]

/-- A value of one key related to the running sum `s` of the quantities: it
is `s`, which is a number other than `NaN` and `-0`. -/
def SumRel (acc : Option JSNum) (s : JSNum) : Prop :=
  acc = some s ∧ s.isNaN = false ∧ s.isNegZero = false ∧ s.Grid

/-- The use the loop body makes of a field. -/
inductive Role where
  | qty : Role
  | item : Role
  | packing : Role
  | skip : Role
  deriving DecidableEq, Repr

/-- The branch of the loop body taken for the trimmed field `val`: the
conditions are those of `scanStep`, in the same order. -/
def fieldRole (st : Scan) (val : Str) : Role :=
  if !(parseFloat val).isNaN && st.qty.isZero then Role.qty
  else if val ≠ [] ∧ st.item = [] then Role.item
  else if val ≠ [] ∧ st.item ≠ [] ∧ st.packing = [] then Role.packing
  else Role.skip

/-- The fields read by the loop started with `i + 1 = n`, in the order in
which they are read, each with its index and its use. -/
def scanEvents (parts : List Str) : Nat → Scan → List (Nat × Role)
  | 0, _ => []
  | i + 1, st =>
    let r := scanStep st (trim (parts.getD i []))
    (i, fieldRole st (trim (parts.getD i []))) ::
      (if r.2 then [] else scanEvents parts i r.1)

/-- The fields read by the loop over the fields `parts` of a line. -/
def lineEvents (parts : List Str) : List (Nat × Role) :=
  scanEvents parts parts.length Scan.init

/-- The number that field `k` of a line parses to, after trimming. -/
def fieldNum (parts : List Str) (k : Nat) : JSNum := parseFloat (trim (parts.getD k []))

/-- A number other than `NaN`, `+0` and `-0`. -/
def JSNum.nonzeroNum (x : JSNum) : Prop := x.isNaN = false ∧ x.isZero = false

instance (x : JSNum) : Decidable x.nonzeroNum := by
  unfold JSNum.nonzeroNum
  infer_instance

end LoanManager

namespace LoanManager

/-! ## The summary and its keys -/

theorem processLine_eq (s : Summary) (line : Str) :
    processLine s line =
      match lineScan line with
      | none => s
      | some st =>
        Summary.set s (mkKey st.item st.packing)
          (JSNum.add (orZero (Summary.get s (mkKey st.item st.packing))) st.qty) := by
  unfold processLine lineScan
  by_cases h5 : (splitBy isDelim line).length < 5
  · simp [h5]
  · by_cases hi : (scanLine (splitBy isDelim line)).item = []
    · simp [h5, hi]
    · simp [h5, hi]

theorem keys_set (s : Summary) (k : Str) (v : JSNum) :
    (Summary.set s k v).map Prod.fst = addKey (s.map Prod.fst) k := by
  induction s with
  | nil => simp [Summary.set, addKey]
  | cons a rest ih =>
    obtain ⟨k0, w⟩ := a
    by_cases h : k0 = k
    · subst h
      simp [Summary.set, addKey]
    · have hne : ¬ k = k0 := fun e => h e.symm
      simp only [Summary.set, h, if_false, List.map_cons, ih, addKey, List.mem_cons, hne,
        false_or]
      by_cases hm : k ∈ List.map Prod.fst rest
      · simp [hm]
      · simp [hm]

theorem keys_processLine (s : Summary) (line : Str) :
    (processLine s line).map Prod.fst =
      match lineKey line with
      | none => s.map Prod.fst
      | some k => addKey (s.map Prod.fst) k := by
  rw [processLine_eq]
  unfold lineKey
  cases lineScan line with
  | none => rfl
  | some st => simp [keys_set]

theorem keys_foldl (lines : List Str) (s : Summary) :
    (lines.foldl processLine s).map Prod.fst =
      (lines.filterMap lineKey).foldl addKey (s.map Prod.fst) := by
  induction lines generalizing s with
  | nil => rfl
  | cons l ls ih =>
    rw [List.foldl_cons, ih, keys_processLine]
    cases h : lineKey l with
    | none => simp [List.filterMap_cons, h]
    | some k => simp [List.filterMap_cons, h]

theorem foldl_addKey (ks acc : List Str) :
    ks.foldl addKey acc = acc ++ (firstOcc ks).filter (fun k => decide (k ∉ acc)) := by
  induction ks generalizing acc with
  | nil => simp [firstOcc]
  | cons k ks ih =>
    rw [List.foldl_cons, ih]
    by_cases hk : k ∈ acc
    · simp only [addKey, hk, if_true, firstOcc, List.filter_cons, not_true_eq_false,
        decide_False, Bool.false_eq_true, if_false, List.filter_filter]
      congr 1
      apply List.filter_congr
      intro x _
      by_cases hx : x ∈ acc
      · simp [hx]
      · have : x ≠ k := fun e => hx (e ▸ hk)
        simp [hx, this]
    · simp only [addKey, hk, if_false, firstOcc, List.filter_cons, not_false_eq_true,
        decide_True, if_true, List.filter_filter, List.append_assoc, List.singleton_append]
      congr 2
      apply List.filter_congr
      intro x _
      simp [not_or, Bool.and_comm]

theorem summarize_keys (rawText : Str) :
    (summarize rawText).map Prod.fst = firstOcc (lineKeys rawText) := by
  unfold summarize lineKeys
  rw [keys_foldl, foldl_addKey]
  simp

theorem mem_firstOcc (ks : List Str) (x : Str) : x ∈ firstOcc ks ↔ x ∈ ks := by
  induction ks with
  | nil => simp [firstOcc]
  | cons k ks ih =>
    by_cases h : x = k
    · simp [firstOcc, h]
    · simp [firstOcc, h, List.mem_filter, ih]

theorem nodup_firstOcc (ks : List Str) : (firstOcc ks).Nodup := by
  induction ks with
  | nil => simp [firstOcc]
  | cons k ks ih =>
    simp only [firstOcc, List.nodup_cons, List.mem_filter]
    refine ⟨?_, ih.filter _⟩
    simp

theorem length_firstOcc (ks : List Str) : (firstOcc ks).length = ks.toFinset.card := by
  rw [← List.toFinset_card_of_nodup (nodup_firstOcc ks)]
  congr 1
  ext x
  simp [mem_firstOcc]

end LoanManager

namespace LoanManager

/-! ## The distribution over the two tables -/

theorem distribute_eq (es : List (Str × JSNum)) (idx : Nat) (t : Tables) :
    distribute es idx t =
      { left := t.left ++ sideRows 0 es idx, right := t.right ++ sideRows 1 es idx } := by
  induction es generalizing idx t with
  | nil => simp [distribute, sideRows]
  | cons a rest ih =>
    obtain ⟨k, q⟩ := a
    have h2 : idx % 2 = 0 ∨ idx % 2 = 1 := by omega
    rcases h2 with h | h
    · simp [distribute, h, ih, sideRows, List.enumFrom, List.filter_cons]
    · simp [distribute, h, ih, sideRows, List.enumFrom, List.filter_cons]

theorem summarize_nil : summarize [] = [] := by
  simp [summarize, textLines, splitBy, processLine, isDelim]

theorem parseLedgerData_eq (rawText : Str) :
    parseLedgerData rawText =
      { left := sideRows 0 (summarize rawText) 0, right := sideRows 1 (summarize rawText) 0 } := by
  unfold parseLedgerData
  by_cases h : rawText = []
  · subst h
    simp [summarize_nil, sideRows]
  · simp [h, distribute_eq]

theorem sideRows_length (es : List (Str × JSNum)) (idx : Nat) :
    (sideRows 0 es idx).length = (es.length + (1 - idx % 2)) / 2 ∧
      (sideRows 1 es idx).length = (es.length + idx % 2) / 2 := by
  induction es generalizing idx with
  | nil =>
    have h2 : idx % 2 = 0 ∨ idx % 2 = 1 := by omega
    rcases h2 with h | h <;> simp [sideRows, h]
  | cons a rest ih =>
    have h2 : idx % 2 = 0 ∨ idx % 2 = 1 := by omega
    have ih1 := (ih (idx + 1)).1
    have ih2 := (ih (idx + 1)).2
    simp only [sideRows, List.length_map] at ih1 ih2 ⊢
    rcases h2 with h | h
    · have h1 : (idx + 1) % 2 = 1 := by omega
      simp only [List.enumFrom, List.filter_cons, h, decide_True, if_true, List.length_cons,
        ih1, ih2, h1]
      simp
      omega
    · have h1 : (idx + 1) % 2 = 0 := by omega
      simp only [List.enumFrom, List.filter_cons, h, if_true, List.length_cons,
        ih1, ih2, h1]
      simp
      omega

theorem sideRows_get (es : List (Str × JSNum)) (idx i : Nat) (h : idx % 2 = 0) :
    (sideRows 0 es idx)[i]? = (es[2 * i]?).map (fun kv => mkEntry (idx + 2 * i) kv.1 kv.2) ∧
      (sideRows 1 es idx)[i]? =
        (es[2 * i + 1]?).map (fun kv => mkEntry (idx + (2 * i + 1)) kv.1 kv.2) := by
  induction i generalizing es idx with
  | zero =>
    have h1 : (idx + 1) % 2 = 1 := by omega
    match es with
    | [] => simp [sideRows]
    | [a] => simp [sideRows, List.enumFrom, List.filter_cons, h]
    | a :: b :: rest => simp [sideRows, List.enumFrom, List.filter_cons, h, h1]
  | succ i ih =>
    have h1 : (idx + 1) % 2 = 1 := by omega
    have h2 : (idx + 1 + 1) % 2 = 0 := by omega
    have e1 : 2 * (i + 1) = 2 * i + 1 + 1 := by ring
    match es with
    | [] => simp [sideRows]
    | [a] => simp [sideRows, List.enumFrom, List.filter_cons, h, e1]
    | a :: b :: rest =>
      have ih' := ih rest (idx + 1 + 1) h2
      simp only [sideRows] at ih' ⊢
      have e2 : idx + 1 + 1 + 2 * i = idx + (2 * i + 1 + 1) := by ring
      have e3 : idx + 1 + 1 + (2 * i + 1) = idx + (2 * i + 1 + 1 + 1) := by ring
      simp only [e2, e3] at ih'
      simp only [List.enumFrom, List.filter_cons, h, h1, decide_True, decide_False, if_true,
        List.map_cons, List.getElem?_cons_succ, e1, Nat.zero_ne_one, Nat.one_ne_zero,
        Bool.false_eq_true, if_false]
      exact ih'

/-! ## Lines that are dropped -/

theorem foldl_processLine_short (lines : List Str)
    (h : ∀ line ∈ lines, (splitBy isDelim line).length < 5) :
    lines.foldl processLine [] = [] := by
  induction lines with
  | nil => rfl
  | cons l ls ih =>
    have hl : (splitBy isDelim l).length < 5 := h l (List.mem_cons_self _ _)
    have : processLine [] l = [] := by simp [processLine, hl]
    rw [List.foldl_cons, this]
    exact ih (fun line hm => h line (List.mem_cons_of_mem _ hm))

end LoanManager

namespace LoanManager

/-! ## Properties of the specification -/

/-- C5: a text all of whose lines have fewer than 5 fields (split at tabs and
commas) gives two empty tables. -/
theorem short_lines_give_empty_tables (rawText : Str)
    (h : ∀ line ∈ textLines rawText, (splitBy isDelim line).length < 5) :
    parseLedgerData rawText = { left := [], right := [] } := by
  rw [parseLedgerData_eq]
  have hs : summarize rawText = [] := foldl_processLine_short _ h
  simp [hs, sideRows]

theorem short_lines_give_empty_tables_witness :
    (∀ line ∈ textLines "ItemA, BoxPack, 10".toList, (splitBy isDelim line).length < 5) ∧
      parseLedgerData "ItemA, BoxPack, 10".toList = { left := [], right := [] } ∧
      parseLedgerData "".toList = { left := [], right := [] } :=
  ⟨by decide, short_lines_give_empty_tables "ItemA, BoxPack, 10".toList (by decide),
    by decide⟩

/-- C6: with `N` the number of distinct keys of the item-yielding lines, which
is the number of keys of the summary, the left table has `ceil(N/2)` rows and
the right table `floor(N/2)`; the right table is never the longer one and the
lengths differ by at most 1. -/
theorem split_parity (rawText : Str) :
    (summarize rawText).length = (lineKeys rawText).toFinset.card ∧
      (parseLedgerData rawText).left.length = ((lineKeys rawText).toFinset.card + 1) / 2 ∧
      (parseLedgerData rawText).right.length = (lineKeys rawText).toFinset.card / 2 ∧
      (parseLedgerData rawText).right.length ≤ (parseLedgerData rawText).left.length ∧
      (parseLedgerData rawText).left.length ≤ (parseLedgerData rawText).right.length + 1 := by
  have hN : (summarize rawText).length = (lineKeys rawText).toFinset.card := by
    rw [← length_firstOcc, ← summarize_keys, List.length_map]
  have hl := (sideRows_length (summarize rawText) 0).1
  have hr := (sideRows_length (summarize rawText) 0).2
  rw [parseLedgerData_eq]
  simp only [hN] at hl hr
  simp only [Nat.zero_mod, Nat.sub_zero, Nat.add_zero] at hl hr
  refine ⟨hN, hl, hr, ?_, ?_⟩
  · rw [hl, hr]; omega
  · rw [hl, hr]; omega

/-- C7: the keys of the summary are the keys of the item-yielding lines in the
order of their first occurrence; row `i` of the left table is the entry built
from position `2 i` of the summary and row `i` of the right table the entry
built from position `2 i + 1`. -/
theorem first_occurrence_alternation (rawText : Str) (i : Nat) :
    (summarize rawText).map Prod.fst = firstOcc (lineKeys rawText) ∧
      (parseLedgerData rawText).left[i]? =
        ((summarize rawText)[2 * i]?).map (fun kv => mkEntry (2 * i) kv.1 kv.2) ∧
      (parseLedgerData rawText).right[i]? =
        ((summarize rawText)[2 * i + 1]?).map (fun kv => mkEntry (2 * i + 1) kv.1 kv.2) := by
  have hg := sideRows_get (summarize rawText) 0 i (by decide)
  simp only [Nat.zero_add] at hg
  rw [parseLedgerData_eq]
  exact ⟨summarize_keys rawText, hg.1, hg.2⟩

/-- C1, evaluated where it fails: the line `x,y,c,a|b,5` has the item `a|b`
and the packing `c`, and its row has the article `a` and the packing `b`;
the lines `x,y,c,a|b,5` and `x,y,b|c,a,7` have different pairs of item and
packing and are merged into one row. -/
theorem bar_in_item_breaks_pairing :
    (lineScan "x,y,c,a|b,5".toList).map (fun st => (st.item, st.packing)) =
        some ("a|b".toList, "c".toList) ∧
      (parseLedgerData "x,y,c,a|b,5".toList).left.map (fun r => (r.article, r.packing)) =
        [(some "a".toList, some "b".toList)] ∧
      (parseLedgerData "x,y,c,a|b,5".toList).right = [] ∧
      (lineScan "x,y,b|c,a,7".toList).map (fun st => (st.item, st.packing)) =
        some ("a".toList, "b|c".toList) ∧
      parseLedgerData "x,y,c,a|b,5\nx,y,b|c,a,7".toList =
        { left := [⟨1, some "a".toList, some "b".toList, JSNum.ofNat 12, JSNum.ofNat 12⟩],
          right := [] } := by
  decide!

/-- C2, evaluated where it fails: three lines with three different keys give
a left table with the serial numbers 1 and 3 and a right table with the
serial number 2. -/
theorem serials_follow_global_position :
    (parseLedgerData "x,y,P,A,1\nx,y,P,B,2\nx,y,P,C,3".toList).left.map Row.sl = [1, 3] ∧
      (parseLedgerData "x,y,P,A,1\nx,y,P,B,2\nx,y,P,C,3".toList).right.map Row.sl = [2] := by
  decide!

end LoanManager

namespace LoanManager

/-! ## The tables held by `App` -/

theorem lastNonEmpty_append (pre : List Str) (t : Str) :
    lastNonEmpty (pre ++ [t]) = if t ≠ [] then t else lastNonEmpty pre := by
  unfold lastNonEmpty
  by_cases h : t = []
  · simp [h]
  · simp [h, List.find?_cons]

theorem currentText_append (pre : List Str) (t : Str) : currentText (pre ++ [t]) = t := by
  simp [currentText]

theorem lastNonEmpty_of_current (edits : List Str) (h : currentText edits ≠ []) :
    lastNonEmpty edits = currentText edits := by
  induction edits using List.reverseRecOn with
  | nil => simp [currentText] at h
  | append_singleton pre t _ =>
    rw [currentText_append] at h ⊢
    rw [lastNonEmpty_append]
    simp [h]

theorem afterEdits_append (pre : List Str) (t : Str) :
    AppState.afterEdits (pre ++ [t]) = AppState.setRawData (AppState.afterEdits pre) t := by
  simp [AppState.afterEdits, List.foldl_append]

theorem afterEdits_inv (edits : List Str) :
    (AppState.afterEdits edits).rawData = currentText edits ∧
      (AppState.afterEdits edits).tableData = parseLedgerData (lastNonEmpty edits) := by
  induction edits using List.reverseRecOn with
  | nil =>
    simp [AppState.afterEdits, AppState.initial, AppState.effect, currentText, lastNonEmpty,
      parseLedgerData]
  | append_singleton pre t ih =>
    obtain ⟨ih1, ih2⟩ := ih
    rw [afterEdits_append, currentText_append, lastNonEmpty_append]
    unfold AppState.setRawData
    by_cases hsame : t = (AppState.afterEdits pre).rawData
    · rw [if_pos hsame]
      refine ⟨hsame.symm, ?_⟩
      by_cases ht : t = []
      · simp [ht, ih2]
      · have hc : currentText pre ≠ [] := by rw [← ih1, ← hsame]; exact ht
        rw [ih2, lastNonEmpty_of_current pre hc, ← ih1, ← hsame]
        simp [ht]
    · rw [if_neg hsame]
      unfold AppState.effect
      by_cases ht : t = []
      · simp [ht, ih2]
      · simp [ht]

/-- C4, as amended: after every sequence of edits of the raw text the tables
held by `App` are `parseLedgerData` of the most recent non-empty text (of the
empty string when no edit was non-empty); an edit to the empty string keeps
the tables of the text before it. -/
theorem tables_follow_last_nonempty_text (edits : List Str) :
    (AppState.afterEdits edits).tableData = parseLedgerData (lastNonEmpty edits) :=
  (afterEdits_inv edits).2

/-- C4 fails as stated: after the edits `X\tY\tBoxA\tArticle1\t15` and then the
empty string, the text is empty and the tables still hold the row of the
first text, not the two empty tables of the empty string. -/
theorem tables_kept_after_clearing_text :
    (AppState.afterEdits ["X\tY\tBoxA\tArticle1\t15".toList, "".toList]).rawData = [] ∧
      (AppState.afterEdits ["X\tY\tBoxA\tArticle1\t15".toList, "".toList]).tableData =
        { left := [⟨1, some "Article1".toList, some "BoxA".toList, JSNum.ofNat 15,
            JSNum.ofNat 15⟩], right := [] } ∧
      (AppState.afterEdits ["X\tY\tBoxA\tArticle1\t15".toList, "".toList]).tableData ≠
        parseLedgerData
          (AppState.afterEdits ["X\tY\tBoxA\tArticle1\t15".toList, "".toList]).rawData := by
  decide!

end LoanManager

namespace LoanManager

/-! ## A single line -/

theorem splitBy_of_forall_not (p : Char → Bool) (s : Str) (h : ∀ c ∈ s, p c = false) :
    splitBy p s = [s] := by
  induction s with
  | nil => rfl
  | cons c cs ih =>
    have hc : p c = false := h c (List.mem_cons_self _ _)
    have ht := ih (fun x hx => h x (List.mem_cons_of_mem _ hx))
    simp [splitBy, hc, ht]

theorem splitBy_append_sep (p : Char → Bool) (a b : Str) (sep : Char)
    (h : ∀ c ∈ a, p c = false) (hs : p sep = true) :
    splitBy p (a ++ sep :: b) = a :: splitBy p b := by
  induction a with
  | nil => simp [splitBy, hs]
  | cons c cs ih =>
    have hc : p c = false := h c (List.mem_cons_self _ _)
    have ht := ih (fun x hx => h x (List.mem_cons_of_mem _ hx))
    simp [splitBy, hc, ht]

theorem mkEntry_mkKey (idx : Nat) (A P : Str) (q : JSNum) (hA : '|' ∉ A) (hP : '|' ∉ P) :
    mkEntry idx (mkKey A P) q =
      { sl := idx + 1, article := some A, packing := some P, qty := q, qtyKg := q } := by
  have h1 : ∀ c ∈ A, (fun c => decide (c = '|')) c = false := by
    intro c hc
    have : c ≠ '|' := fun e => hA (e ▸ hc)
    simp [this]
  have h2 : ∀ c ∈ P, (fun c => decide (c = '|')) c = false := by
    intro c hc
    have : c ≠ '|' := fun e => hP (e ▸ hc)
    simp [this]
  unfold mkEntry mkKey
  rw [splitBy_append_sep _ A P '|' h1 (by simp), splitBy_of_forall_not _ P h2]
  simp

theorem add_zero_left (q : JSNum) (hz : q.isZero = false) : JSNum.add JSNum.zero q = q := by
  cases q with
  | nan => rfl
  | inf b => rfl
  | fin n m e =>
    cases m with
    | zero => simp [JSNum.isZero] at hz
    | succ m => simp [JSNum.add, JSNum.zero]

theorem scanStep_qty (st : Scan) (val : Str) (h1 : (parseFloat val).isNaN = false)
    (h2 : st.qty.isZero = true) :
    scanStep st val = ({ st with qty := parseFloat val }, false) := by
  simp [scanStep, h1, h2]

theorem scanStep_item (st : Scan) (val : Str)
    (h : (parseFloat val).isNaN = true ∨ st.qty.isZero = false) (hv : val ≠ [])
    (hi : st.item = []) :
    scanStep st val = ({ st with item := val }, false) := by
  rcases h with h | h <;> simp [scanStep, h, hv, hi]

theorem scanStep_packing (st : Scan) (val : Str)
    (h : (parseFloat val).isNaN = true ∨ st.qty.isZero = false) (hv : val ≠ [])
    (hi : st.item ≠ []) (hp : st.packing = []) :
    scanStep st val = ({ st with packing := val }, true) := by
  rcases h with h | h <;> simp [scanStep, h, hv, hi, hp]

theorem scanStep_skip (st : Scan) (val : Str)
    (h : (parseFloat val).isNaN = true ∨ st.qty.isZero = false)
    (hv : val = [] ∨ (st.item ≠ [] ∧ st.packing ≠ [])) :
    scanStep st val = (st, false) := by
  rcases hv with hv | ⟨hv1, hv2⟩
  · subst hv
    rcases h with h | h <;> simp [scanStep, h]
  · rcases h with h | h <;> simp [scanStep, h, hv1, hv2]

theorem scanLine_three (pre : List Str) (fP fA fQ : Str)
    (hqn : (parseFloat (trim fQ)).isNaN = false) (hqz : (parseFloat (trim fQ)).isZero = false)
    (hA : trim fA ≠ []) (hP : trim fP ≠ []) :
    scanLine (pre ++ [fP, fA, fQ]) =
      { qty := parseFloat (trim fQ), item := trim fA, packing := trim fP } := by
  have hlen : (pre ++ [fP, fA, fQ]).length = pre.length + 2 + 1 := by simp
  have g2 : (pre ++ [fP, fA, fQ]).getD (pre.length + 2) [] = fQ := by
    rw [List.getD_append_right _ _ _ _ (by omega)]
    simp
  have g1 : (pre ++ [fP, fA, fQ]).getD (pre.length + 1) [] = fA := by
    rw [List.getD_append_right _ _ _ _ (by omega)]
    simp
  have g0 : (pre ++ [fP, fA, fQ]).getD pre.length [] = fP := by
    rw [List.getD_append_right _ _ _ _ (by omega)]
    simp
  unfold scanLine
  rw [hlen]
  simp only [scanFrom, g2, g1, g0]
  rw [scanStep_qty _ _ hqn (by decide)]
  simp only [Bool.false_eq_true, if_false]
  rw [scanStep_item _ _ (Or.inr hqz) hA rfl]
  simp only [Bool.false_eq_true, if_false]
  rw [scanStep_packing _ _ (Or.inr hqz) hP hA rfl]
  simp [Scan.init]

/-- C8: a text of one line with at least 5 fields whose last field, trimmed,
parses as a number `q` other than zero, and whose two fields before it,
trimmed, are non-empty strings `A` and `P` without `|`, gives a left table
of the single row with serial number 1, article `A`, packing `P` and both
quantities `q`, and an empty right table. -/
theorem single_line_row (rawText : Str) (pre : List Str) (fP fA fQ : Str)
    (hline : '\n' ∉ rawText)
    (hparts : splitBy isDelim rawText = pre ++ [fP, fA, fQ]) (hpre : 2 ≤ pre.length)
    (hqn : (parseFloat (trim fQ)).isNaN = false) (hqz : (parseFloat (trim fQ)).isZero = false)
    (hA : trim fA ≠ []) (hAb : '|' ∉ trim fA)
    (hP : trim fP ≠ []) (hPb : '|' ∉ trim fP) :
    parseLedgerData rawText =
      { left := [{ sl := 1, article := some (trim fA), packing := some (trim fP),
                   qty := parseFloat (trim fQ), qtyKg := parseFloat (trim fQ) }],
        right := [] } := by
  have hne : rawText ≠ [] := by
    intro e
    subst e
    simp [splitBy] at hparts
    have := congrArg List.length hparts
    simp at this
  have hl : textLines rawText = [rawText] := by
    apply splitBy_of_forall_not
    intro c hc
    have : c ≠ '\n' := fun e => hline (e ▸ hc)
    simp [this]
  have h5 : ¬ (pre ++ [fP, fA, fQ]).length < 5 := by simp; omega
  have hs : summarize rawText =
      [(mkKey (trim fA) (trim fP), parseFloat (trim fQ))] := by
    unfold summarize
    rw [hl]
    simp only [List.foldl_cons, List.foldl_nil, processLine, hparts, h5, if_false,
      scanLine_three pre fP fA fQ hqn hqz hA hP]
    simp [hA, Summary.set, Summary.get, orZero, add_zero_left _ hqz]
  unfold parseLedgerData
  rw [if_neg hne, hs]
  simp [distribute, mkEntry_mkKey 0 _ _ _ hAb hPb]

theorem single_line_row_witness :
    parseLedgerData "X\tY\tBoxA\tArticle1\t15".toList =
        { left := [{ sl := 1, article := some (trim "Article1".toList),
                     packing := some (trim "BoxA".toList),
                     qty := parseFloat (trim "15".toList),
                     qtyKg := parseFloat (trim "15".toList) }],
          right := [] } ∧
      trim "Article1".toList = "Article1".toList ∧ trim "BoxA".toList = "BoxA".toList ∧
      parseFloat (trim "15".toList) = JSNum.ofNat 15 :=
  ⟨single_line_row "X\tY\tBoxA\tArticle1\t15".toList ["X".toList, "Y".toList] "BoxA".toList
      "Article1".toList "15".toList (by decide) (by decide) (by decide) (by decide!)
      (by decide!) (by decide) (by decide) (by decide) (by decide),
    by decide, by decide, by decide!⟩

end LoanManager

namespace LoanManager

/-! ## Facts of the arithmetic -/

theorem bitLenAux_zero (fuel : Nat) : JSNum.bitLenAux fuel 0 = 0 := by
  cases fuel <;> simp [JSNum.bitLenAux]

theorem pow_bitLenAux_le (fuel n : Nat) (hn : n ≠ 0) :
    2 ^ (JSNum.bitLenAux fuel n - 1) ≤ n := by
  induction fuel generalizing n with
  | zero => simp [JSNum.bitLenAux]; omega
  | succ f ih =>
    simp only [JSNum.bitLenAux, hn, if_false, Nat.add_sub_cancel]
    by_cases h2 : n / 2 = 0
    · rw [h2, bitLenAux_zero]
      simp
      omega
    · have h := ih (n / 2) h2
      by_cases hb : JSNum.bitLenAux f (n / 2) = 0
      · rw [hb]
        simp
        omega
      · obtain ⟨b, hb'⟩ := Nat.exists_eq_succ_of_ne_zero hb
        rw [hb'] at h ⊢
        simp only [Nat.succ_eq_add_one, Nat.add_sub_cancel] at h
        rw [pow_succ]
        omega

theorem pack_grid (neg : Bool) (m s : Nat) : (JSNum.pack neg m s).Grid := by
  unfold JSNum.pack
  simp only
  split_ifs <;> (simp [JSNum.Grid]; try omega)

theorem pack_not_zero (neg : Bool) (m s : Nat) (hm : m ≠ 0) :
    (JSNum.pack neg m s).isZero = false := by
  unfold JSNum.pack
  simp only
  split_ifs with h1 h2 h3
  · rfl
  · simp [JSNum.isZero]
  · rfl
  · simp only [JSNum.isZero]
    split
    · next heq => simp at heq; omega
    · rfl

theorem roundRatio_grid (neg : Bool) (p q : Nat) : (JSNum.roundRatio neg p q).Grid :=
  pack_grid _ _ _

theorem roundRatio_not_zero (neg : Bool) (p q : Nat) (hq : 0 < q)
    (hpq : q ≤ p * JSNum.scale) :
    (JSNum.roundRatio neg p q).isZero = false := by
  have hn : (p * JSNum.scale) / q ≠ 0 := by
    have := Nat.div_pos hpq hq
    omega
  have hs : 2 ^ (JSNum.bitLen ((p * JSNum.scale) / q) - 53) ≤ (p * JSNum.scale) / q := by
    refine le_trans ?_ (pow_bitLenAux_le ((p * JSNum.scale) / q) _ hn)
    exact Nat.pow_le_pow_right (by decide) (by unfold JSNum.bitLen; omega)
  have hm0 : 0 < ((p * JSNum.scale) / q) / 2 ^ (JSNum.bitLen ((p * JSNum.scale) / q) - 53) :=
    Nat.div_pos hs (by positivity)
  unfold JSNum.roundRatio
  simp only
  apply pack_not_zero
  split_ifs <;> omega

end LoanManager

namespace LoanManager

theorem isNegZero_of_isZero_false (x : JSNum) (h : x.isZero = false) :
    x.isNegZero = false := by
  cases x with
  | nan => rfl
  | inf b => rfl
  | fin n m e =>
    cases m with
    | zero => simp [JSNum.isZero] at h
    | succ m => cases n <;> rfl

theorem two_pow_le (k a : Nat) (hk : k ≤ a) : 2 ^ k ≤ 2 ^ a :=
  Nat.pow_le_pow_right (by decide) hk

theorem natAbs_scale_ge (t : Int) (ht : t ≠ 0) (k : Nat) (hk : k ≤ 1074) :
    2 ^ k ≤ t.natAbs * JSNum.scale := by
  have h1 : 1 ≤ t.natAbs := by omega
  have h2 : 2 ^ k ≤ JSNum.scale := by
    unfold JSNum.scale
    exact two_pow_le k 1074 hk
  calc 2 ^ k ≤ JSNum.scale := h2
    _ = 1 * JSNum.scale := (Nat.one_mul _).symm
    _ ≤ t.natAbs * JSNum.scale := Nat.mul_le_mul_right _ h1

theorem add_grid (x y : JSNum) (hx : x.Grid) (hy : y.Grid) : (JSNum.add x y).Grid := by
  cases x with
  | nan => cases y <;> simp [JSNum.add, JSNum.Grid]
  | inf a =>
    cases y with
    | nan => simp [JSNum.add, JSNum.Grid]
    | inf b => simp only [JSNum.add]; split_ifs <;> simp [JSNum.Grid]
    | fin n2 m2 e2 => simp [JSNum.add, JSNum.Grid]
  | fin n1 m1 e1 =>
    cases y with
    | nan => simp [JSNum.add, JSNum.Grid]
    | inf b => simp [JSNum.add, JSNum.Grid]
    | fin n2 m2 e2 =>
      simp only [JSNum.add]
      split_ifs
      · simp [JSNum.Grid]
      · exact hy
      · exact hx
      · simp [JSNum.Grid]
      · exact roundRatio_grid _ _ _
      · exact roundRatio_grid _ _ _

theorem add_not_negZero (x y : JSNum) (hx : x.Grid) (hy : y.Grid)
    (hn : x.isNegZero = false) : (JSNum.add x y).isNegZero = false := by
  cases x with
  | nan => cases y <;> simp [JSNum.add, JSNum.isNegZero]
  | inf a =>
    cases y with
    | nan => simp [JSNum.add, JSNum.isNegZero]
    | inf b => simp only [JSNum.add]; split_ifs <;> simp [JSNum.isNegZero]
    | fin n2 m2 e2 => simp [JSNum.add, JSNum.isNegZero]
  | fin n1 m1 e1 =>
    cases y with
    | nan => simp [JSNum.add, JSNum.isNegZero]
    | inf b => simp [JSNum.add, JSNum.isNegZero]
    | fin n2 m2 e2 =>
      simp only [JSNum.Grid] at hx hy
      simp only [JSNum.add]
      split_ifs with h1 h2 h3 h4 h5
      · subst h1
        cases n1
        · simp [JSNum.isNegZero]
        · simp [JSNum.isNegZero] at hn
      · apply isNegZero_of_isZero_false
        simp only [JSNum.isZero]
        split
        · next heq => simp at heq; omega
        · rfl
      · exact hn
      · simp [JSNum.isNegZero]
      · apply isNegZero_of_isZero_false
        apply roundRatio_not_zero _ _ _ (by decide)
        rw [Nat.mul_assoc, Nat.mul_comm (2 ^ _) JSNum.scale, ← Nat.mul_assoc]
        have := natAbs_scale_ge _ h4 0 (by decide)
        calc 1 = 1 * 1 := rfl
          _ ≤ _ := Nat.mul_le_mul (by simpa using this) (Nat.one_le_two_pow)
      · apply isNegZero_of_isZero_false
        apply roundRatio_not_zero _ _ _ (by positivity)
        apply natAbs_scale_ge _ h4
        omega

theorem decimalValue_grid (neg : Bool) (d fl : Nat) (ex : Option (Bool × Nat)) :
    (decimalValue neg d fl ex).Grid := by
  unfold decimalValue
  split
  · exact roundRatio_grid _ _ _
  · split_ifs <;> exact roundRatio_grid _ _ _
  · exact roundRatio_grid _ _ _

theorem parseUnsigned_grid (neg : Bool) (s : Str) : (parseUnsigned neg s).Grid := by
  unfold parseUnsigned
  split
  · simp [JSNum.Grid]
  · simp only
    split_ifs <;> first
      | exact decimalValue_grid _ _ _ _
      | simp [JSNum.Grid]

theorem parseFloat_grid (s : Str) : (parseFloat s).Grid := by
  unfold parseFloat
  split <;> exact parseUnsigned_grid _ _

theorem scanStep_qty_cases (st : Scan) (val : Str) :
    (scanStep st val).1.qty = st.qty ∨ (scanStep st val).1.qty = parseFloat val := by
  unfold scanStep
  split_ifs <;> simp

theorem scanFrom_grid (parts : List Str) (n : Nat) (st : Scan) (h : st.qty.Grid) :
    (scanFrom parts n st).qty.Grid := by
  induction n generalizing st with
  | zero => exact h
  | succ i ih =>
    have hstep : (scanStep st (trim (parts.getD i []))).1.qty.Grid := by
      rcases scanStep_qty_cases st (trim (parts.getD i [])) with e | e
      · rw [e]; exact h
      · rw [e]; exact parseFloat_grid _
    simp only [scanFrom]
    split_ifs
    · exact hstep
    · exact ih _ hstep

theorem lineScan_grid (line : Str) (st : Scan) (h : lineScan line = some st) : st.qty.Grid := by
  unfold lineScan at h
  split_ifs at h
  simp only [Option.some.injEq] at h
  rw [← h]
  exact scanFrom_grid _ _ _ (by simp [Scan.init, JSNum.zero, JSNum.Grid])

end LoanManager

namespace LoanManager

/-! ## Lines with one key -/

theorem processLine_oneKey (k : Str) (acc : Option JSNum) (line : Str)
    (h : ∀ st, lineScan line = some st → mkKey st.item st.packing = k) :
    processLine (oneKey k acc) line =
      match lineScan line with
      | none => oneKey k acc
      | some st => oneKey k (accStep acc st.qty) := by
  rw [processLine_eq]
  cases hl : lineScan line with
  | none => rfl
  | some st =>
    have hk := h st hl
    simp only [hk]
    cases acc with
    | none => simp [oneKey, accStep, Summary.set, Summary.get]
    | some v => simp [oneKey, accStep, Summary.set, Summary.get]

theorem foldl_oneKey (k : Str) (lines : List Str) (acc : Option JSNum)
    (h : ∀ line ∈ lines, ∀ st, lineScan line = some st → mkKey st.item st.packing = k) :
    lines.foldl processLine (oneKey k acc) =
      oneKey k ((lines.filterMap (fun l => (lineScan l).map Scan.qty)).foldl accStep acc) := by
  induction lines generalizing acc with
  | nil => rfl
  | cons l ls ih =>
    have hl := h l (List.mem_cons_self _ _)
    have hls := fun line hm => h line (List.mem_cons_of_mem l hm)
    rw [List.foldl_cons, processLine_oneKey k acc l hl]
    cases hsc : lineScan l with
    | none => simp [List.filterMap_cons, hsc, ih acc hls]
    | some st => simp [List.filterMap_cons, hsc, ih _ hls]

theorem add_orZero (s q : JSNum) (h1 : s.isNaN = false) (h2 : s.isNegZero = false) :
    JSNum.add (orZero (some s)) q = JSNum.add s q := by
  cases s with
  | nan => simp [JSNum.isNaN] at h1
  | inf a => simp [orZero, JSNum.truthy]
  | fin n m e =>
    cases m with
    | zero =>
      cases n with
      | true => simp [JSNum.isNegZero] at h2
      | false =>
        cases q <;> simp [orZero, JSNum.truthy, JSNum.zero, JSNum.add]
    | succ m => simp [orZero, JSNum.truthy]

theorem sumRel_first (q : JSNum) (hq : q.Grid) (hn : (JSNum.add JSNum.zero q).isNaN = false) :
    SumRel (accStep none q) (JSNum.add JSNum.zero q) :=
  ⟨rfl, hn, add_not_negZero _ _ (by simp [JSNum.zero, JSNum.Grid]) hq rfl,
    add_grid _ _ (by simp [JSNum.zero, JSNum.Grid]) hq⟩

theorem sumRel_step (acc : Option JSNum) (s q : JSNum) (h : SumRel acc s) (hq : q.Grid)
    (hn : (JSNum.add s q).isNaN = false) : SumRel (accStep acc q) (JSNum.add s q) := by
  obtain ⟨ha, h1, h2, h3⟩ := h
  subst ha
  exact ⟨by simp [accStep, add_orZero s q h1 h2], hn, add_not_negZero _ _ h3 hq h2,
    add_grid _ _ h3 hq⟩

theorem sumRel_foldl (qs : List JSNum) (acc : Option JSNum) (s : JSNum) (h : SumRel acc s)
    (hg : ∀ q ∈ qs, q.Grid)
    (hn : ∀ k, ((qs.take k).foldl JSNum.add s).isNaN = false) :
    SumRel (qs.foldl accStep acc) (qs.foldl JSNum.add s) := by
  induction qs generalizing acc s with
  | nil => exact h
  | cons q qs ih =>
    have h1 : (JSNum.add s q).isNaN = false := by simpa using hn 1
    apply ih _ _ (sumRel_step acc s q h (hg q (List.mem_cons_self _ _)) h1)
      (fun x hx => hg x (List.mem_cons_of_mem _ hx))
    intro k
    simpa using hn (k + 1)

theorem foldl_accStep_eq_sum (qs : List JSNum) (hne : qs ≠ []) (hg : ∀ q ∈ qs, q.Grid)
    (hn : ∀ k, (JSNum.sum (qs.take k)).isNaN = false) :
    qs.foldl accStep none = some (JSNum.sum qs) := by
  cases qs with
  | nil => exact absurd rfl hne
  | cons q qs =>
    have h1 : (JSNum.add JSNum.zero q).isNaN = false := by simpa [JSNum.sum] using hn 1
    have := sumRel_foldl qs _ _ (sumRel_first q (hg q (List.mem_cons_self _ _)) h1)
      (fun x hx => hg x (List.mem_cons_of_mem _ hx))
      (fun k => by simpa [JSNum.sum] using hn (k + 1))
    exact this.1

theorem lineQtys_grid (rawText : Str) : ∀ q ∈ lineQtys rawText, q.Grid := by
  intro q hq
  unfold lineQtys at hq
  rw [List.mem_filterMap] at hq
  obtain ⟨l, _, hl⟩ := hq
  cases hs : lineScan l with
  | none => simp [hs] at hl
  | some st =>
    simp only [hs, Option.map_some', Option.some.injEq] at hl
    rw [← hl]
    exact lineScan_grid l st hs

/-- C3, as amended: when all item-yielding lines of a text have the same item
and the same packing, there is at least one such line, and no sum of the
first `k` quantities is `NaN`, the left table is the single row of that key
with the sum of the quantities of those lines, and the right table is empty. -/
theorem one_key_one_row (rawText item packing : Str)
    (hsame : ∀ line ∈ textLines rawText, ∀ st, lineScan line = some st →
      st.item = item ∧ st.packing = packing)
    (hsome : ∃ line ∈ textLines rawText, (lineScan line).isSome = true)
    (hnan : ∀ k, (JSNum.sum ((lineQtys rawText).take k)).isNaN = false) :
    parseLedgerData rawText =
      { left := [mkEntry 0 (mkKey item packing) (JSNum.sum (lineQtys rawText))],
        right := [] } := by
  have hkey : ∀ line ∈ textLines rawText, ∀ st, lineScan line = some st →
      mkKey st.item st.packing = mkKey item packing := by
    intro line hl st hst
    obtain ⟨e1, e2⟩ := hsame line hl st hst
    rw [e1, e2]
  have hne : lineQtys rawText ≠ [] := by
    obtain ⟨line, hl, hs⟩ := hsome
    obtain ⟨st, hst⟩ := Option.isSome_iff_exists.mp hs
    have : st.qty ∈ lineQtys rawText := by
      unfold lineQtys
      rw [List.mem_filterMap]
      exact ⟨line, hl, by simp [hst]⟩
    exact List.ne_nil_of_mem this
  have hs : summarize rawText = [(mkKey item packing, JSNum.sum (lineQtys rawText))] := by
    have := foldl_oneKey (mkKey item packing) (textLines rawText) none hkey
    unfold summarize
    simp only [oneKey] at this
    rw [this]
    have h2 := foldl_accStep_eq_sum (lineQtys rawText) hne (lineQtys_grid rawText) hnan
    unfold lineQtys at h2
    rw [h2]
    rfl
  rw [parseLedgerData_eq, hs]
  simp [sideRows, List.enumFrom]

end LoanManager

namespace LoanManager

theorem same_pair_of_check (lines : List Str) (item packing : Str)
    (h : ∀ line ∈ lines, lineScan line = none ∨
      (lineScan line).map (fun st => (st.item, st.packing)) = some (item, packing)) :
    ∀ line ∈ lines, ∀ st, lineScan line = some st → st.item = item ∧ st.packing = packing := by
  intro line hl st hst
  rcases h line hl with h0 | h1
  · rw [h0] at hst
    cases hst
  · rw [hst] at h1
    simpa using h1

theorem nan_free_of_check (qs : List JSNum)
    (h : ∀ k ≤ qs.length, (JSNum.sum (qs.take k)).isNaN = false) :
    ∀ k, (JSNum.sum (qs.take k)).isNaN = false := by
  intro k
  by_cases hk : k ≤ qs.length
  · exact h k hk
  · rw [List.take_of_length_le (by omega)]
    simpa using h qs.length (le_refl _)

theorem one_key_one_row_witness :
    parseLedgerData "X\tY\tBoxA\tArticle1\t15\nX\tY\tBoxA\tArticle1\t5".toList =
        { left := [mkEntry 0 (mkKey "Article1".toList "BoxA".toList)
            (JSNum.sum (lineQtys "X\tY\tBoxA\tArticle1\t15\nX\tY\tBoxA\tArticle1\t5".toList))],
          right := [] } ∧
      lineQtys "X\tY\tBoxA\tArticle1\t15\nX\tY\tBoxA\tArticle1\t5".toList =
        [JSNum.ofNat 15, JSNum.ofNat 5] ∧
      mkEntry 0 (mkKey "Article1".toList "BoxA".toList)
          (JSNum.sum (lineQtys "X\tY\tBoxA\tArticle1\t15\nX\tY\tBoxA\tArticle1\t5".toList)) =
        { sl := 1, article := some "Article1".toList, packing := some "BoxA".toList,
          qty := JSNum.ofNat 20, qtyKg := JSNum.ofNat 20 } :=
  ⟨one_key_one_row "X\tY\tBoxA\tArticle1\t15\nX\tY\tBoxA\tArticle1\t5".toList
      "Article1".toList "BoxA".toList
      (same_pair_of_check _ _ _ (by decide!))
      ⟨"X\tY\tBoxA\tArticle1\t15".toList, by decide, by decide!⟩
      (nan_free_of_check _ (by decide!)),
    by decide!, by decide!⟩

/-- C3 fails as stated: the three lines `x,y,P,A,Infinity`, `x,y,P,A,-Infinity`
and `x,y,P,A,5` have the same item and packing and the quantities `Infinity`,
`-Infinity` and 5, whose sum is `NaN`; the single row has the quantity 5. -/
theorem nan_sum_is_dropped :
    (∀ line ∈ textLines "x,y,P,A,Infinity\nx,y,P,A,-Infinity\nx,y,P,A,5".toList,
        (lineScan line).map (fun st => (st.item, st.packing)) =
          some ("A".toList, "P".toList)) ∧
      lineQtys "x,y,P,A,Infinity\nx,y,P,A,-Infinity\nx,y,P,A,5".toList =
        [JSNum.inf false, JSNum.inf true, JSNum.ofNat 5] ∧
      JSNum.sum (lineQtys "x,y,P,A,Infinity\nx,y,P,A,-Infinity\nx,y,P,A,5".toList) =
        JSNum.nan ∧
      parseLedgerData "x,y,P,A,Infinity\nx,y,P,A,-Infinity\nx,y,P,A,5".toList =
        { left := [{ sl := 1, article := some "A".toList, packing := some "P".toList,
                     qty := JSNum.ofNat 5, qtyKg := JSNum.ofNat 5 }],
          right := [] } ∧
      (parseLedgerData "x,y,P,A,Infinity\nx,y,P,A,-Infinity\nx,y,P,A,5".toList).left.map Row.qty ≠
        [JSNum.sum (lineQtys "x,y,P,A,Infinity\nx,y,P,A,-Infinity\nx,y,P,A,5".toList)] := by
  decide!

end LoanManager

namespace LoanManager

/-! ## The fields read by the loop -/

theorem step_cases (st : Scan) (val : Str) :
    (fieldRole st val = Role.qty ∧ (parseFloat val).isNaN = false ∧ st.qty.isZero = true ∧
        scanStep st val = ({ st with qty := parseFloat val }, false)) ∨
      (fieldRole st val = Role.item ∧
        ((parseFloat val).isNaN = true ∨ st.qty.isZero = false) ∧ val ≠ [] ∧ st.item = [] ∧
        scanStep st val = ({ st with item := val }, false)) ∨
      (fieldRole st val = Role.packing ∧
        ((parseFloat val).isNaN = true ∨ st.qty.isZero = false) ∧ val ≠ [] ∧ st.item ≠ [] ∧
        st.packing = [] ∧ scanStep st val = ({ st with packing := val }, true)) ∨
      (fieldRole st val = Role.skip ∧
        ((parseFloat val).isNaN = true ∨ st.qty.isZero = false) ∧
        (val = [] ∨ (st.item ≠ [] ∧ st.packing ≠ [])) ∧ scanStep st val = (st, false)) := by
  by_cases c1 : (!(parseFloat val).isNaN && st.qty.isZero) = true
  · left
    have h1 : (parseFloat val).isNaN = false := by
      cases h : (parseFloat val).isNaN <;> simp [h] at c1 ⊢
    have h2 : st.qty.isZero = true := by
      cases h : st.qty.isZero <;> simp [h] at c1 ⊢
    exact ⟨by unfold fieldRole; rw [if_pos c1], h1, h2, scanStep_qty st val h1 h2⟩
  · right
    have hc : (parseFloat val).isNaN = true ∨ st.qty.isZero = false := by
      cases h : (parseFloat val).isNaN
      · cases h' : st.qty.isZero
        · exact Or.inr rfl
        · simp [h, h'] at c1
      · exact Or.inl rfl
    by_cases c2 : val ≠ [] ∧ st.item = []
    · left
      exact ⟨by unfold fieldRole; rw [if_neg c1, if_pos c2], hc, c2.1, c2.2,
        scanStep_item st val hc c2.1 c2.2⟩
    · right
      by_cases c3 : val ≠ [] ∧ st.item ≠ [] ∧ st.packing = []
      · left
        refine ⟨?_, hc, c3.1, c3.2.1, c3.2.2, scanStep_packing st val hc c3.1 c3.2.1 c3.2.2⟩
        unfold fieldRole
        rw [if_neg c1, if_neg c2, if_pos c3]
      · right
        have hv : val = [] ∨ (st.item ≠ [] ∧ st.packing ≠ []) := by
          by_cases hv : val = []
          · exact Or.inl hv
          · right
            have hi : st.item ≠ [] := fun e => c2 ⟨hv, e⟩
            exact ⟨hi, fun e => c3 ⟨hv, hi, e⟩⟩
        refine ⟨?_, hc, hv, scanStep_skip st val hc hv⟩
        unfold fieldRole
        rw [if_neg c1, if_neg c2, if_neg c3]

theorem scanFrom_succ (parts : List Str) (i : Nat) (st st1 : Scan) (b : Bool)
    (h : scanStep st (trim (parts.getD i [])) = (st1, b)) :
    scanFrom parts (i + 1) st = if b then st1 else scanFrom parts i st1 := by
  simp only [scanFrom, h]

theorem scanEvents_succ (parts : List Str) (i : Nat) (st st1 : Scan) (b : Bool)
    (h : scanStep st (trim (parts.getD i [])) = (st1, b)) :
    scanEvents parts (i + 1) st =
      (i, fieldRole st (trim (parts.getD i []))) ::
        (if b then [] else scanEvents parts i st1) := by
  simp only [scanEvents, h]

theorem events_lt (parts : List Str) (n : Nat) (st : Scan) (i : Nat) (r : Role)
    (h : (i, r) ∈ scanEvents parts n st) : i < n := by
  induction n generalizing st with
  | zero => simp [scanEvents] at h
  | succ n ih =>
    simp only [scanEvents, List.mem_cons, Prod.mk.injEq] at h
    rcases h with ⟨e, _⟩ | h
    · omega
    · split_ifs at h
      · simp at h
      · have := ih _ h
        omega

theorem qty_kept (parts : List Str) (n : Nat) (st : Scan) (h : st.qty.isZero = false) :
    (scanFrom parts n st).qty = st.qty := by
  induction n generalizing st with
  | zero => rfl
  | succ n ih =>
    rcases step_cases st (trim (parts.getD n [])) with
      ⟨_, _, hz, _⟩ | ⟨_, _, _, _, e⟩ | ⟨_, _, _, _, _, e⟩ | ⟨_, _, _, e⟩
    · rw [h] at hz
      cases hz
    · rw [scanFrom_succ _ _ _ _ _ e]
      simp only [Bool.false_eq_true, if_false]
      refine ih _ ?_
      exact h
    · rw [scanFrom_succ _ _ _ _ _ e]
      simp
    · rw [scanFrom_succ _ _ _ _ _ e]
      simp only [Bool.false_eq_true, if_false]
      refine ih _ ?_
      exact h

theorem item_kept (parts : List Str) (n : Nat) (st : Scan) (h : st.item ≠ []) :
    (scanFrom parts n st).item = st.item := by
  induction n generalizing st with
  | zero => rfl
  | succ n ih =>
    rcases step_cases st (trim (parts.getD n [])) with
      ⟨_, _, _, e⟩ | ⟨_, _, _, hi, _⟩ | ⟨_, _, _, _, _, e⟩ | ⟨_, _, _, e⟩
    · rw [scanFrom_succ _ _ _ _ _ e]
      simp only [Bool.false_eq_true, if_false]
      refine ih _ ?_
      exact h
    · exact absurd hi h
    · rw [scanFrom_succ _ _ _ _ _ e]
      simp
    · rw [scanFrom_succ _ _ _ _ _ e]
      simp only [Bool.false_eq_true, if_false]
      refine ih _ ?_
      exact h

theorem no_qty_event (parts : List Str) (n : Nat) (st : Scan) (h : st.qty.isZero = false)
    (j : Nat) : (j, Role.qty) ∉ scanEvents parts n st := by
  induction n generalizing st with
  | zero => simp [scanEvents]
  | succ n ih =>
    rcases step_cases st (trim (parts.getD n [])) with
      ⟨_, _, hz, _⟩ | ⟨hr, _, _, _, e⟩ | ⟨hr, _, _, _, _, e⟩ | ⟨hr, _, _, e⟩
    · rw [h] at hz
      cases hz
    · rw [scanEvents_succ _ _ _ _ _ e, hr]
      simp only [Bool.false_eq_true, if_false, List.mem_cons, Prod.mk.injEq, and_false,
        false_or, reduceCtorEq]
      refine ih _ ?_
      exact h
    · rw [scanEvents_succ _ _ _ _ _ e, hr]
      simp
    · rw [scanEvents_succ _ _ _ _ _ e, hr]
      simp only [Bool.false_eq_true, if_false, List.mem_cons, Prod.mk.injEq, and_false,
        false_or, reduceCtorEq]
      refine ih _ ?_
      exact h

theorem item_event (parts : List Str) (n : Nat) (st : Scan) (i : Nat)
    (h : (i, Role.item) ∈ scanEvents parts n st) :
    st.item = [] ∧ (scanFrom parts n st).item = trim (parts.getD i []) ∧
      trim (parts.getD i []) ≠ [] := by
  induction n generalizing st with
  | zero => simp [scanEvents] at h
  | succ n ih =>
    rcases step_cases st (trim (parts.getD n [])) with
      ⟨hr, _, _, e⟩ | ⟨hr, _, hv, hi, e⟩ | ⟨hr, _, _, _, _, e⟩ | ⟨hr, _, _, e⟩
    · rw [scanEvents_succ _ _ _ _ _ e, hr] at h
      rw [scanFrom_succ _ _ _ _ _ e]
      simpa using ih _ (by simpa using h)
    · rw [scanEvents_succ _ _ _ _ _ e, hr] at h
      rw [scanFrom_succ _ _ _ _ _ e]
      simp only [Bool.false_eq_true, if_false, List.mem_cons, Prod.mk.injEq, and_true] at h ⊢
      rcases h with h | h
      · subst h
        exact ⟨hi, by rw [item_kept _ _ _ (by simpa using hv)], hv⟩
      · have := (ih _ h).1
        exact absurd this hv
    · rw [scanEvents_succ _ _ _ _ _ e, hr] at h
      simp at h
    · rw [scanEvents_succ _ _ _ _ _ e, hr] at h
      rw [scanFrom_succ _ _ _ _ _ e]
      simpa using ih _ (by simpa using h)

theorem packing_event (parts : List Str) (n : Nat) (st : Scan) (j : Nat)
    (h : (j, Role.packing) ∈ scanEvents parts n st) :
    (scanFrom parts n st).packing = trim (parts.getD j []) ∧
      ∀ i, (i, Role.item) ∈ scanEvents parts n st → j < i := by
  induction n generalizing st with
  | zero => simp [scanEvents] at h
  | succ n ih =>
    rcases step_cases st (trim (parts.getD n [])) with
      ⟨hr, _, _, e⟩ | ⟨hr, _, hv, hi, e⟩ | ⟨hr, _, _, _, _, e⟩ | ⟨hr, _, _, e⟩
    · rw [scanEvents_succ _ _ _ _ _ e, hr] at h ⊢
      rw [scanFrom_succ _ _ _ _ _ e]
      simpa using ih _ (by simpa using h)
    · rw [scanEvents_succ _ _ _ _ _ e, hr] at h ⊢
      rw [scanFrom_succ _ _ _ _ _ e]
      have h' : (j, Role.packing) ∈ scanEvents parts n { st with item := trim (parts.getD n []) } := by
        simpa using h
      refine ⟨by simpa using (ih _ h').1, ?_⟩
      intro i hmem
      simp only [Bool.false_eq_true, if_false, List.mem_cons, Prod.mk.injEq, and_true] at hmem
      rcases hmem with hmem | hmem
      · subst hmem
        exact events_lt _ _ _ _ _ h'
      · exact (ih _ h').2 i hmem
    · rw [scanEvents_succ _ _ _ _ _ e, hr] at h ⊢
      rw [scanFrom_succ _ _ _ _ _ e]
      simp only [if_true, List.mem_cons, Prod.mk.injEq, and_true, List.not_mem_nil,
        or_false] at h ⊢
      subst h
      simp
    · rw [scanEvents_succ _ _ _ _ _ e, hr] at h ⊢
      rw [scanFrom_succ _ _ _ _ _ e]
      simpa using ih _ (by simpa using h)

end LoanManager

namespace LoanManager

theorem before_item (parts : List Str) (n : Nat) (st : Scan) (i : Nat)
    (h : (i, Role.item) ∈ scanEvents parts n st) (k : Nat) (hik : i < k) (hkn : k < n) :
    trim (parts.getD k []) = [] ∨ (k, Role.qty) ∈ scanEvents parts n st := by
  induction n generalizing st with
  | zero => simp [scanEvents] at h
  | succ n ih =>
    rcases step_cases st (trim (parts.getD n [])) with
      ⟨hr, _, _, e⟩ | ⟨hr, _, hv, hi, e⟩ | ⟨hr, _, _, _, _, e⟩ | ⟨hr, _, hs, e⟩
    · rw [scanEvents_succ _ _ _ _ _ e, hr] at h ⊢
      simp only [Bool.false_eq_true, if_false, List.mem_cons, Prod.mk.injEq, and_false,
        false_or, reduceCtorEq, and_true] at h ⊢
      by_cases hk : k = n
      · exact Or.inr (Or.inl hk)
      · rcases ih _ h (by omega) with h1 | h1
        · exact Or.inl h1
        · exact Or.inr (Or.inr h1)
    · rw [scanEvents_succ _ _ _ _ _ e, hr] at h
      simp only [Bool.false_eq_true, if_false, List.mem_cons, Prod.mk.injEq, and_true] at h
      rcases h with h | h
      · omega
      · exact absurd (item_event _ _ _ _ h).1 hv
    · rw [scanEvents_succ _ _ _ _ _ e, hr] at h
      simp at h
    · rw [scanEvents_succ _ _ _ _ _ e, hr] at h ⊢
      simp only [Bool.false_eq_true, if_false, List.mem_cons, Prod.mk.injEq, and_false,
        false_or, reduceCtorEq] at h ⊢
      have hi0 := (item_event _ _ _ _ h).1
      have hv : trim (parts.getD n []) = [] := by
        rcases hs with hs | ⟨hs, _⟩
        · exact hs
        · exact absurd hi0 hs
      by_cases hk : k = n
      · subst hk
        exact Or.inl hv
      · exact ih _ h (by omega)

theorem item_left_of_qty (parts : List Str) (n : Nat) (st : Scan) (i j : Nat)
    (hi : (i, Role.item) ∈ scanEvents parts n st) (hj : (j, Role.qty) ∈ scanEvents parts n st)
    (hyp : ∀ k, j < k → k < n →
      trim (parts.getD k []) = [] ∨ (fieldNum parts k).isNaN = false) :
    i < j := by
  induction n generalizing st with
  | zero => simp [scanEvents] at hi
  | succ n ih =>
    rcases step_cases st (trim (parts.getD n [])) with
      ⟨hr, _, _, e⟩ | ⟨hr, hc, hv, _, e⟩ | ⟨hr, _, _, _, _, e⟩ | ⟨hr, _, _, e⟩
    · rw [scanEvents_succ _ _ _ _ _ e, hr] at hi hj
      simp only [Bool.false_eq_true, if_false, List.mem_cons, Prod.mk.injEq, and_false,
        false_or, reduceCtorEq, and_true] at hi hj
      rcases hj with hj | hj
      · have := events_lt _ _ _ _ _ hi
        omega
      · exact ih _ hi hj (fun k h1 h2 => hyp k h1 (by omega))
    · rw [scanEvents_succ _ _ _ _ _ e, hr] at hi hj
      simp only [Bool.false_eq_true, if_false, List.mem_cons, Prod.mk.injEq, and_false,
        false_or, reduceCtorEq, and_true] at hi hj
      have hjn := events_lt _ _ _ _ _ hj
      rcases hi with hi | hi
      · exfalso
        have hz : st.qty.isZero = false := by
          rcases hc with hc | hc
          · rcases hyp n hjn (by omega) with h1 | h1
            · exact absurd h1 hv
            · unfold fieldNum at h1
              rw [hc] at h1
              cases h1
          · exact hc
        exact no_qty_event parts n { st with item := trim (parts.getD n []) } hz j hj
      · exact absurd (item_event _ _ _ _ hi).1 hv
    · rw [scanEvents_succ _ _ _ _ _ e, hr] at hi
      simp at hi
    · rw [scanEvents_succ _ _ _ _ _ e, hr] at hi hj
      simp only [Bool.false_eq_true, if_false, List.mem_cons, Prod.mk.injEq, and_false,
        false_or, reduceCtorEq] at hi hj
      exact ih _ hi hj (fun k h1 h2 => hyp k h1 (by omega))

theorem qty_zero_after_step (st : Scan) (val : Str) (hz : st.qty.isZero = true)
    (hn : ¬ (parseFloat val).nonzeroNum) : (scanStep st val).1.qty.isZero = true := by
  rcases step_cases st val with
    ⟨_, h1, _, e⟩ | ⟨_, _, _, _, e⟩ | ⟨_, _, _, _, _, e⟩ | ⟨_, _, _, e⟩
  · rw [e]
    simp only
    cases h : (parseFloat val).isZero
    · exact absurd ⟨h1, h⟩ hn
    · rfl
  · rw [e]; exact hz
  · rw [e]; exact hz
  · rw [e]; exact hz

theorem numeric_field_role (parts : List Str) (n : Nat) (st : Scan) (k : Nat) (r : Role)
    (hz : st.qty.isZero = true) (hk : (k, r) ∈ scanEvents parts n st)
    (h0 : (fieldNum parts k).isNaN = false)
    (hb : ∀ k', k < k' → k' < n → ¬ (fieldNum parts k').nonzeroNum) : r = Role.qty := by
  induction n generalizing st with
  | zero => simp [scanEvents] at hk
  | succ n ih =>
    have hstep : k < n → (scanStep st (trim (parts.getD n []))).1.qty.isZero = true :=
      fun hlt => qty_zero_after_step st _ hz (hb n hlt (by omega))
    have hhead : k = n → fieldRole st (trim (parts.getD n [])) = Role.qty := by
      intro e
      subst e
      rcases step_cases st (trim (parts.getD k [])) with
        ⟨hr, _⟩ | ⟨_, hc, _⟩ | ⟨_, hc, _⟩ | ⟨_, hc, _⟩
      · exact hr
      all_goals
        rcases hc with hc | hc
        · unfold fieldNum at h0
          rw [hc] at h0
          cases h0
        · rw [hz] at hc
          cases hc
    simp only [scanEvents, List.mem_cons, Prod.mk.injEq] at hk
    rcases hk with ⟨e1, e2⟩ | hk
    · rw [e2]
      exact hhead e1
    · split_ifs at hk
      · simp at hk
      · have hlt := events_lt _ _ _ _ _ hk
        exact ih _ (hstep hlt) hk (fun k' h1 h2 => hb k' h1 (by omega))

theorem first_nonzero_qty (parts : List Str) (n : Nat) (st : Scan) (j : Nat) (r : Role)
    (hz : st.qty.isZero = true) (hj : (j, r) ∈ scanEvents parts n st)
    (hnz : (fieldNum parts j).nonzeroNum)
    (hb : ∀ k, j < k → k < n → ¬ (fieldNum parts k).nonzeroNum) :
    (scanFrom parts n st).qty = fieldNum parts j := by
  induction n generalizing st with
  | zero => simp [scanEvents] at hj
  | succ n ih =>
    have hrole := numeric_field_role parts (n + 1) st j r hz hj hnz.1 hb
    subst hrole
    have hstep : j < n → (scanStep st (trim (parts.getD n []))).1.qty.isZero = true :=
      fun hlt => qty_zero_after_step st _ hz (hb n hlt (by omega))
    rcases step_cases st (trim (parts.getD n [])) with
      ⟨hr, _, _, e⟩ | ⟨hr, _, _, _, e⟩ | ⟨hr, _, _, _, _, e⟩ | ⟨hr, _, _, e⟩
    · rw [scanEvents_succ _ _ _ _ _ e, hr] at hj
      rw [scanFrom_succ _ _ _ _ _ e]
      rw [e] at hstep
      simp only [Bool.false_eq_true, if_false, List.mem_cons, Prod.mk.injEq, and_true] at hj ⊢
      rcases hj with hj | hj
      · subst hj
        rw [qty_kept _ _ _ hnz.2]
        rfl
      · exact ih _ (hstep (events_lt _ _ _ _ _ hj)) hj (fun k h1 h2 => hb k h1 (by omega))
    · rw [scanEvents_succ _ _ _ _ _ e, hr] at hj
      rw [scanFrom_succ _ _ _ _ _ e]
      simp only [Bool.false_eq_true, if_false, List.mem_cons, Prod.mk.injEq, and_false,
        false_or, reduceCtorEq] at hj ⊢
      exact ih _ hz hj (fun k h1 h2 => hb k h1 (by omega))
    · rw [scanEvents_succ _ _ _ _ _ e, hr] at hj
      simp at hj
    · rw [scanEvents_succ _ _ _ _ _ e, hr] at hj
      rw [scanFrom_succ _ _ _ _ _ e]
      simp only [Bool.false_eq_true, if_false, List.mem_cons, Prod.mk.injEq, and_false,
        false_or, reduceCtorEq] at hj ⊢
      exact ih _ hz hj (fun k h1 h2 => hb k h1 (by omega))

theorem no_nonzero_qty (parts : List Str) (n : Nat) (st : Scan) (hz : st.qty.isZero = true)
    (hall : ∀ k r, (k, r) ∈ scanEvents parts n st → ¬ (fieldNum parts k).nonzeroNum) :
    (scanFrom parts n st).qty.isZero = true := by
  induction n generalizing st with
  | zero => exact hz
  | succ n ih =>
    have hhead : ¬ (fieldNum parts n).nonzeroNum :=
      hall n (fieldRole st (trim (parts.getD n []))) (by simp [scanEvents])
    have hstep := qty_zero_after_step st (trim (parts.getD n [])) hz hhead
    simp only [scanFrom]
    split_ifs with hbreak
    · exact hstep
    · refine ih _ hstep (fun k r hk => hall k r ?_)
      simp only [scanEvents, hbreak, List.mem_cons]
      exact Or.inr hk

end LoanManager

namespace LoanManager

/-! ## Position of the item, and fields that parse to zero -/

/-- C9, as amended: when the loop over the fields of a line takes field `i` as
the item, the item is that field trimmed, it is not empty, and every field
to its right is empty after trimming or was taken as a quantity; a field
taken as the packing lies to the left of field `i`; and field `i` lies to the
left of a field `j` taken as a quantity when every field to the right of
field `j` is empty after trimming or parses as a number. -/
theorem item_field_position (parts : List Str) (i : Nat)
    (hi : (i, Role.item) ∈ lineEvents parts) :
    (scanLine parts).item = trim (parts.getD i []) ∧ trim (parts.getD i []) ≠ [] ∧
      (∀ k, i < k → k < parts.length →
        trim (parts.getD k []) = [] ∨ (k, Role.qty) ∈ lineEvents parts) ∧
      (∀ j, (j, Role.packing) ∈ lineEvents parts →
        j < i ∧ (scanLine parts).packing = trim (parts.getD j [])) ∧
      (∀ j, (j, Role.qty) ∈ lineEvents parts →
        (∀ k, j < k → k < parts.length →
          trim (parts.getD k []) = [] ∨ (fieldNum parts k).isNaN = false) →
        i < j) := by
  unfold lineEvents at hi ⊢
  unfold scanLine
  have h1 := item_event parts parts.length Scan.init i hi
  refine ⟨h1.2.1, h1.2.2, fun k hik hk => before_item _ _ _ _ hi k hik hk, ?_, ?_⟩
  · intro j hj
    have h2 := packing_event parts parts.length Scan.init j hj
    exact ⟨h2.2 i hi, h2.1⟩
  · intro j hj hyp
    exact item_left_of_qty _ _ _ _ _ hi hj hyp

theorem item_field_position_witness :
    (3, Role.item) ∈ lineEvents (splitBy isDelim "x,y,P,A,5".toList) ∧
      (scanLine (splitBy isDelim "x,y,P,A,5".toList)).item =
        trim ((splitBy isDelim "x,y,P,A,5".toList).getD 3 []) ∧
      lineEvents (splitBy isDelim "x,y,P,A,5".toList) =
        [(4, Role.qty), (3, Role.item), (2, Role.packing)] ∧
      (2 < 3 ∧ (scanLine (splitBy isDelim "x,y,P,A,5".toList)).packing =
        trim ((splitBy isDelim "x,y,P,A,5".toList).getD 2 [])) ∧
      3 < 4 :=
  ⟨by decide!,
    (item_field_position (splitBy isDelim "x,y,P,A,5".toList) 3 (by decide!)).1,
    by decide!,
    (item_field_position (splitBy isDelim "x,y,P,A,5".toList) 3 (by decide!)).2.2.2.1 2
      (by decide!),
    (item_field_position (splitBy isDelim "x,y,P,A,5".toList) 3 (by decide!)).2.2.2.2 4
      (by decide!)
      (fun k h1 h2 => by
        have h5 : (splitBy isDelim "x,y,P,A,5".toList).length = 5 := by decide
        omega)⟩

/-- C9 fails as stated: in the line `a,b,P,5,foo` the loop takes field 4
(`foo`) as the item, then field 3 (`5`) as the quantity, then field 2 (`P`)
as the packing: the item stands to the right of the quantity. -/
theorem item_right_of_quantity :
    5 ≤ (splitBy isDelim "a,b,P,5,foo".toList).length ∧
      lineEvents (splitBy isDelim "a,b,P,5,foo".toList) =
        [(4, Role.item), (3, Role.qty), (2, Role.packing)] ∧
      scanLine (splitBy isDelim "a,b,P,5,foo".toList) =
        { qty := JSNum.ofNat 5, item := "foo".toList, packing := "P".toList } ∧
      ¬ (∀ i j, (i, Role.item) ∈ lineEvents (splitBy isDelim "a,b,P,5,foo".toList) →
          (j, Role.qty) ∈ lineEvents (splitBy isDelim "a,b,P,5,foo".toList) → i < j) :=
  ⟨by decide, by decide!, by decide!,
    fun h => absurd (h 4 3 (by decide!) (by decide!)) (by decide)⟩

theorem scanLine_four (pre : List Str) (fP fA fN fZ : Str)
    (hzn : (parseFloat (trim fZ)).isNaN = false) (hzz : (parseFloat (trim fZ)).isZero = true)
    (hqn : (parseFloat (trim fN)).isNaN = false) (hqz : (parseFloat (trim fN)).isZero = false)
    (hA : trim fA ≠ []) (hP : trim fP ≠ []) :
    scanLine (pre ++ [fP, fA, fN, fZ]) =
      { qty := parseFloat (trim fN), item := trim fA, packing := trim fP } := by
  have hlen : (pre ++ [fP, fA, fN, fZ]).length = pre.length + 3 + 1 := by simp
  have g3 : (pre ++ [fP, fA, fN, fZ]).getD (pre.length + 3) [] = fZ := by
    rw [List.getD_append_right _ _ _ _ (by omega)]
    simp
  have g2 : (pre ++ [fP, fA, fN, fZ]).getD (pre.length + 2) [] = fN := by
    rw [List.getD_append_right _ _ _ _ (by omega)]
    simp
  have g1 : (pre ++ [fP, fA, fN, fZ]).getD (pre.length + 1) [] = fA := by
    rw [List.getD_append_right _ _ _ _ (by omega)]
    simp
  have g0 : (pre ++ [fP, fA, fN, fZ]).getD pre.length [] = fP := by
    rw [List.getD_append_right _ _ _ _ (by omega)]
    simp
  unfold scanLine
  rw [hlen]
  simp only [scanFrom, g3, g2, g1, g0]
  rw [scanStep_qty _ _ hzn (by decide)]
  simp only [Bool.false_eq_true, if_false]
  rw [scanStep_qty _ _ hqn hzz]
  simp only [Bool.false_eq_true, if_false]
  rw [scanStep_item _ _ (Or.inr hqz) hA rfl]
  simp only [Bool.false_eq_true, if_false]
  rw [scanStep_packing _ _ (Or.inr hqz) hP hA rfl]
  simp [Scan.init]

theorem one_line_tables (rawText : Str) (q : JSNum) (A P : Str)
    (hline : '\n' ∉ rawText) (h5 : ¬ (splitBy isDelim rawText).length < 5)
    (hscan : scanLine (splitBy isDelim rawText) = { qty := q, item := A, packing := P })
    (hqz : q.isZero = false) (hA : A ≠ []) (hAb : '|' ∉ A) (hPb : '|' ∉ P) :
    parseLedgerData rawText =
      { left := [{ sl := 1, article := some A, packing := some P, qty := q, qtyKg := q }],
        right := [] } := by
  have hne : rawText ≠ [] := by
    intro e
    subst e
    simp [splitBy] at h5
  have hl : textLines rawText = [rawText] := by
    apply splitBy_of_forall_not
    intro c hc
    have : c ≠ '\n' := fun e => hline (e ▸ hc)
    simp [this]
  have hs : summarize rawText = [(mkKey A P, q)] := by
    unfold summarize
    rw [hl]
    simp only [List.foldl_cons, List.foldl_nil, processLine, h5, if_false, hscan]
    simp [hA, Summary.set, Summary.get, orZero, add_zero_left _ hqz]
  unfold parseLedgerData
  rw [if_neg hne, hs]
  simp [distribute, mkEntry_mkKey 0 _ _ _ hAb hPb]

/-- C10, as amended: in the loop over the fields of a line, a field that
parses to zero and is read before any field that parses to a number other
than zero is taken as a quantity, not as item or packing; the quantity of
the line is the number of the first field read that parses to a number other
than zero, and a zero when no field read does; a quantity other than zero is
not changed by the fields read after it; and a text of one line with at
least 5 fields that end with `P`, `A`, a number `q` other than zero and a
zero, `P` and `A` non-empty after trimming and without `|`, gives the single
row with serial number 1, article `A`, packing `P` and both quantities `q`. -/
theorem zero_fields_and_quantity (parts : List Str) :
    (∀ k r, (k, r) ∈ lineEvents parts → (fieldNum parts k).isNaN = false →
        (fieldNum parts k).isZero = true →
        (∀ k', k < k' → k' < parts.length → ¬ (fieldNum parts k').nonzeroNum) →
        r = Role.qty) ∧
      (∀ j r, (j, r) ∈ lineEvents parts → (fieldNum parts j).nonzeroNum →
        (∀ k, j < k → k < parts.length → ¬ (fieldNum parts k).nonzeroNum) →
        (scanLine parts).qty = fieldNum parts j) ∧
      ((∀ k r, (k, r) ∈ lineEvents parts → ¬ (fieldNum parts k).nonzeroNum) →
        (scanLine parts).qty.isZero = true) ∧
      (∀ n st, st.qty.isZero = false → (scanFrom parts n st).qty = st.qty) ∧
      (∀ (rawText : Str) (pre : List Str) (fP fA fN fZ : Str),
        '\n' ∉ rawText → splitBy isDelim rawText = parts →
        parts = pre ++ [fP, fA, fN, fZ] → 1 ≤ pre.length →
        (parseFloat (trim fZ)).isNaN = false → (parseFloat (trim fZ)).isZero = true →
        (parseFloat (trim fN)).nonzeroNum →
        trim fA ≠ [] → '|' ∉ trim fA → trim fP ≠ [] → '|' ∉ trim fP →
        parseLedgerData rawText =
          { left := [{ sl := 1, article := some (trim fA), packing := some (trim fP),
                       qty := parseFloat (trim fN), qtyKg := parseFloat (trim fN) }],
            right := [] }) := by
  have hz : Scan.init.qty.isZero = true := rfl
  refine ⟨?_, ?_, ?_, fun n st h => qty_kept parts n st h, ?_⟩
  · intro k r hk h0 _ hb
    exact numeric_field_role parts parts.length Scan.init k r hz hk h0 hb
  · intro j r hj hnz hb
    exact first_nonzero_qty parts parts.length Scan.init j r hz hj hnz hb
  · intro hall
    exact no_nonzero_qty parts parts.length Scan.init hz hall
  · intro rawText pre fP fA fN fZ hline hsplit hparts hpre hzn hzz hq hA hAb hP hPb
    have h5 : ¬ (splitBy isDelim rawText).length < 5 := by
      rw [hsplit, hparts]
      simp
      omega
    have hscan : scanLine (splitBy isDelim rawText) =
        { qty := parseFloat (trim fN), item := trim fA, packing := trim fP } := by
      rw [hsplit, hparts]
      exact scanLine_four pre fP fA fN fZ hzn hzz hq.1 hq.2 hA hP
    exact one_line_tables rawText _ _ _ hline h5 hscan hq.2 hA hAb hPb

theorem zero_fields_and_quantity_witness :
    lineEvents (splitBy isDelim "x,P,A,7,0".toList) =
        [(4, Role.qty), (3, Role.qty), (2, Role.item), (1, Role.packing)] ∧
      (fieldNum (splitBy isDelim "x,P,A,7,0".toList) 4).isZero = true ∧
      (scanLine (splitBy isDelim "x,P,A,7,0".toList)).qty =
        fieldNum (splitBy isDelim "x,P,A,7,0".toList) 3 ∧
      fieldNum (splitBy isDelim "x,P,A,7,0".toList) 3 = JSNum.ofNat 7 ∧
      parseLedgerData "x,P,A,7,0".toList =
        { left := [{ sl := 1, article := some (trim "A".toList),
                     packing := some (trim "P".toList),
                     qty := parseFloat (trim "7".toList),
                     qtyKg := parseFloat (trim "7".toList) }],
          right := [] } ∧
      trim "A".toList = "A".toList ∧ trim "P".toList = "P".toList ∧
      parseFloat (trim "7".toList) = JSNum.ofNat 7 :=
  ⟨by decide!, by decide!,
    (zero_fields_and_quantity (splitBy isDelim "x,P,A,7,0".toList)).2.1 3 Role.qty
      (by decide!) (by decide!)
      (fun k h1 h2 => by
        have h5 : (splitBy isDelim "x,P,A,7,0".toList).length = 5 := by decide
        have h4 : k = 4 := by omega
        subst h4
        decide!),
    by decide!,
    (zero_fields_and_quantity (splitBy isDelim "x,P,A,7,0".toList)).2.2.2.2
      "x,P,A,7,0".toList ["x".toList] "P".toList "A".toList "7".toList "0".toList
      (by decide) rfl (by decide) (by decide) (by decide!) (by decide!) (by decide!)
      (by decide) (by decide) (by decide) (by decide),
    by decide, by decide, by decide!⟩

/-- C10 fails as stated: in the line `x,y,P,0,5` the field `0` parses to zero
and is taken as the item, the quantity 5 having been found before it. -/
theorem zero_field_taken_as_item :
    ((fieldNum (splitBy isDelim "x,y,P,0,5".toList) 3).isNaN = false ∧
        (fieldNum (splitBy isDelim "x,y,P,0,5".toList) 3).isZero = true ∧
        lineEvents (splitBy isDelim "x,y,P,0,5".toList) =
          [(4, Role.qty), (3, Role.item), (2, Role.packing)] ∧
        parseLedgerData "x,y,P,0,5".toList =
          { left := [{ sl := 1, article := some "0".toList, packing := some "P".toList,
                       qty := JSNum.ofNat 5, qtyKg := JSNum.ofNat 5 }],
            right := [] }) ∧
      ¬ (∀ k r, (k, r) ∈ lineEvents (splitBy isDelim "x,y,P,0,5".toList) →
          (fieldNum (splitBy isDelim "x,y,P,0,5".toList) k).isNaN = false →
          (fieldNum (splitBy isDelim "x,y,P,0,5".toList) k).isZero = true →
          r ≠ Role.item ∧ r ≠ Role.packing) :=
  ⟨by decide!, fun h => (h 3 Role.item (by decide!) (by decide!) (by decide!)).1 rfl⟩

end LoanManager
